import Mathlib

/-!
Verification of the taco index-expression core (expr.cpp and tree.cpp).

The expression IR is shallowly embedded: `IndexVar` and `TensorVar` handles
are identity-based in the source (pointer comparison on an inner content
block), so they are modelled by natural-number identities.  The C++
`IndexExpr` is a nullable smart pointer to an immutable `ExprNode`; the
null ("undefined") handle is modelled by the dedicated constructor
`IndexExpr.undef`, which mirrors the sentinel `IndexExpr()` and lets the
source's undefined-propagation be written exactly as in the code.
Immediate payloads are modelled on decidable carriers (Int, Nat); the
claims under study do not concern IEEE float semantics.
-/

namespace Taco

/-- An index variable handle: identity-based (pointer to content block). -/
abbrev IndexVar := Nat

/-- A tensor variable handle: identity-based (pointer to content block). -/
abbrev TensorVarId := Nat

/-- The expression node variants of expr_nodes.h as used by expr.cpp.
`undef` is the undefined (null) `IndexExpr` handle; it can occur as a child
(the `sum` builder stores an `AddNode` with undefined operands as the
reduction operator). -/
inductive IndexExpr where
  | undef : IndexExpr
  | access (tensorVar : TensorVarId) (indexVars : List IndexVar) : IndexExpr
  | neg (a : IndexExpr) : IndexExpr
  | sqrt (a : IndexExpr) : IndexExpr
  | add (a b : IndexExpr) : IndexExpr
  | sub (a b : IndexExpr) : IndexExpr
  | mul (a b : IndexExpr) : IndexExpr
  | div (a b : IndexExpr) : IndexExpr
  | reduction (op : IndexExpr) (var : IndexVar) (a : IndexExpr) : IndexExpr
  | intImm (val : Int) : IndexExpr
  | uintImm (val : Nat) : IndexExpr
  | floatImm (val : Int) : IndexExpr
  | complexImm (val : Int × Int) : IndexExpr
deriving DecidableEq, Repr

/-- IndexExpr::defined — the handle points to a node. -/
def IndexExpr.isDefined : IndexExpr → Bool
  | .undef => false
  | _ => true

/-- The element-comparison loop of `Equals::visit(const AccessNode*)`:
`for (i = 0; i < anode->indexVars.size(); i++) if (anode->indexVars[i] != bnode->indexVars[i]) ...`.
The loop is driven by the first list's length; when the second list is
shorter the C++ reads `bnode->indexVars[i]` out of bounds (undefined
behaviour), modelled here as an unequal element. -/
def accessLoopEq : List IndexVar → List IndexVar → Bool
  | [], _ => true
  | a :: as, b :: bs => (a == b) && accessLoopEq as bs
  | _ :: _, [] => false

/-- Structural equality, `struct Equals` together with the free function
`equals(a, b)`: both undefined is true, exactly one undefined is false,
otherwise dispatch on the left node's variant and require the right to be
the same variant.  The Access case keeps the source's comparison of
`anode->indexVars.size()` with itself (line 96 of expr.cpp), so the length
guard never fires.  The Reduction case compares `op` and `a` but not
`var`, as in the source. -/
def equals : IndexExpr → IndexExpr → Bool
  | .undef, .undef => true
  | .undef, _ => false
  | _, .undef => false
  | .access ta ia, .access tb ib =>
      if ta != tb then false
      else if ia.length != ia.length then false
      else accessLoopEq ia ib
  | .access _ _, _ => false
  | .neg a1, .neg b1 => equals a1 b1
  | .neg _, _ => false
  | .sqrt a1, .sqrt b1 => equals a1 b1
  | .sqrt _, _ => false
  | .add a1 a2, .add b1 b2 => equals a1 b1 && equals a2 b2
  | .add _ _, _ => false
  | .sub a1 a2, .sub b1 b2 => equals a1 b1 && equals a2 b2
  | .sub _ _, _ => false
  | .mul a1 a2, .mul b1 b2 => equals a1 b1 && equals a2 b2
  | .mul _ _, _ => false
  | .div a1 a2, .div b1 b2 => equals a1 b1 && equals a2 b2
  | .div _ _, _ => false
  | .reduction aop _ abody, .reduction bop _ bbody =>
      equals aop bop && equals abody bbody
  | .reduction _ _ _, _ => false
  | .intImm v1, .intImm v2 => v1 == v2
  | .intImm _, _ => false
  | .uintImm v1, .uintImm v2 => v1 == v2
  | .uintImm _, _ => false
  | .floatImm v1, .floatImm v2 => v1 == v2
  | .floatImm _, _ => false
  | .complexImm v1, .complexImm v2 => v1 == v2
  | .complexImm _, _ => false

/-- The per-access step of `getIndexVars(expr)`: push each index variable
of the access that has not been seen yet, preserving occurrence order. -/
def pushUnseen (acc : List IndexVar) (vars : List IndexVar) : List IndexVar :=
  vars.foldl (fun a v => if v ∈ a then a else a ++ [v]) acc

/-- The `match` traversal of `getIndexVars(expr)`: depth-first pre-order
over every node (the `match` helper of the traversal framework is not in
src; its traversal order is modelled from the spec, section 4.3), firing
the handler at each Access. -/
def givAux : IndexExpr → List IndexVar → List IndexVar
  | .undef, acc => acc
  | .access _ vars, acc => pushUnseen acc vars
  | .neg a, acc => givAux a acc
  | .sqrt a, acc => givAux a acc
  | .add a b, acc => givAux b (givAux a acc)
  | .sub a b, acc => givAux b (givAux a acc)
  | .mul a b, acc => givAux b (givAux a acc)
  | .div a b, acc => givAux b (givAux a acc)
  | .reduction op _ a, acc => givAux a (givAux op acc)
  | .intImm _, acc => acc
  | .uintImm _, acc => acc
  | .floatImm _, acc => acc
  | .complexImm _, acc => acc

/-- getIndexVars(expr): the in-order, de-duplicated list of index
variables occurring in any Access of the expression. -/
def getIndexVars (e : IndexExpr) : List IndexVar := givAux e []

/-- The walk of `GetVarsWithoutReduction`: an ExprVisitor (default
children-visiting dispatch modelled from the spec, section 4.3, since
expr_visitor.h is not in src) whose Access case inserts the access's
variables into the accumulated set and whose Reduction case erases the
reduction's variable from the accumulated set; the Reduction override
does not visit the node's children, so subtrees under a Reduction are
skipped. -/
def gvwrAux : IndexExpr → Finset IndexVar → Finset IndexVar
  | .undef, s => s
  | .access _ vars, s => s ∪ vars.toFinset
  | .neg a, s => gvwrAux a s
  | .sqrt a, s => gvwrAux a s
  | .add a b, s => gvwrAux b (gvwrAux a s)
  | .sub a b, s => gvwrAux b (gvwrAux a s)
  | .mul a b, s => gvwrAux b (gvwrAux a s)
  | .div a b, s => gvwrAux b (gvwrAux a s)
  | .reduction _ v _, s => s.erase v
  | .intImm _, s => s
  | .uintImm _, s => s
  | .floatImm _, s => s
  | .complexImm _, s => s

/-- getVarsWithoutReduction(expr) from expr.cpp. -/
def getVarsWithoutReduction (e : IndexExpr) : Finset IndexVar := gvwrAux e ∅

/-- verify(expr, free): every variable of getVarsWithoutReduction is
contained in the free set. -/
def verify (e : IndexExpr) (free : List IndexVar) : Bool :=
  decide (∀ v ∈ getVarsWithoutReduction e, v ∈ free)

/-- The traversal state machine of `doesEinsumApply`'s VerifyEinsum
visitor, with the `mulnodeVisited` flag passed down per subtree (the C++
saves and restores it around each Mul subtree, which is the same
discipline).  Add and Sub are disqualified beneath a Mul; a Div reaches
the overridden `visit(const BinaryExprNode*)` and disqualifies; a
Reduction disqualifies.  Neg and Sqrt have no override in the source;
their dispatch lives in expr_visitor.h which is not in src and is
modelled from the spec, section 4.4: any node variant other than
Add/Sub/Mul/Access/immediates disqualifies.  An undefined expression is
never visited (accepting it would dereference null); it is modelled as
not einsum-eligible. -/
def doesEinsumApplyAux (mulnodeVisited : Bool) : IndexExpr → Bool
  | .undef => false
  | .access _ _ => true
  | .neg _ => false
  | .sqrt _ => false
  | .add a b =>
      if mulnodeVisited then false
      else doesEinsumApplyAux mulnodeVisited a && doesEinsumApplyAux mulnodeVisited b
  | .sub a b =>
      if mulnodeVisited then false
      else doesEinsumApplyAux mulnodeVisited a && doesEinsumApplyAux mulnodeVisited b
  | .mul a b => doesEinsumApplyAux true a && doesEinsumApplyAux true b
  | .div _ _ => false
  | .reduction _ _ _ => false
  | .intImm _ => true
  | .uintImm _ => true
  | .floatImm _ => true
  | .complexImm _ => true

/-- doesEinsumApply(expr) from expr.cpp. -/
def doesEinsumApply (e : IndexExpr) : Bool := doesEinsumApplyAux false e

/-- sum(var)(expr): a Reduction whose operator is an AddNode with
undefined operands, as built by the `sum` ReductionProxy. -/
def sumNode (v : IndexVar) (e : IndexExpr) : IndexExpr :=
  .reduction (.add .undef .undef) v e

/-- Einsum::addReductions: iterate the expression's index variables in
reverse occurrence order and wrap each variable that is not free in a
sum Reduction around the accumulated expression. -/
def addReductions (free : List IndexVar) (e : IndexExpr) : IndexExpr :=
  (getIndexVars e).reverse.foldl
    (fun acc v => if v ∈ free then acc else sumNode v acc) e

/-- The Einsum rewriter: `visit(AddNode)` and `visit(SubNode)` clear
`onlyOneTerm` (returned here as the Bool, true when an Add or Sub was
visited) and wrap each immediate child with addReductions without further
rewriting; all other variants take the default ExprRewriter path
(expr_rewriter.h is not in src; modelled from the spec, section 4.3:
rebuild each node from its rewritten children).  Under einsum
eligibility only Access, immediates and Mul are reachable below the
Add/Sub spine. -/
def einsumRw (free : List IndexVar) : IndexExpr → IndexExpr × Bool
  | .add a b => (.add (addReductions free a) (addReductions free b), true)
  | .sub a b => (.sub (addReductions free a) (addReductions free b), true)
  | .mul a b =>
      let r1 := einsumRw free a
      let r2 := einsumRw free b
      (.mul r1.1 r2.1, r1.2 || r2.2)
  | .div a b =>
      let r1 := einsumRw free a
      let r2 := einsumRw free b
      (.div r1.1 r2.1, r1.2 || r2.2)
  | .neg a =>
      let r := einsumRw free a
      (.neg r.1, r.2)
  | .sqrt a =>
      let r := einsumRw free a
      (.sqrt r.1, r.2)
  | .reduction op v a =>
      let r1 := einsumRw free op
      let r2 := einsumRw free a
      (.reduction r1.1 v r2.1, r1.2 || r2.2)
  | e => (e, false)

/-- einsum(expr, free) from expr.cpp: undefined when the expression is
not einsum-eligible; otherwise rewrite, and when no Add or Sub was
encountered (a single term) wrap the whole result with addReductions. -/
def einsum (e : IndexExpr) (free : List IndexVar) : IndexExpr :=
  if doesEinsumApply e = false then .undef
  else if (einsumRw free e).2 then (einsumRw free e).1
  else addReductions free (einsumRw free e).1

/-- Specification-side predicate (following the claim's words, to be
compared with doesEinsumApply): a product of Access nodes and
immediates, with no Add or Sub (nor any other variant) beneath. -/
def productOfAtoms : IndexExpr → Bool
  | .mul a b => productOfAtoms a && productOfAtoms b
  | .access _ _ => true
  | .intImm _ => true
  | .uintImm _ => true
  | .floatImm _ => true
  | .complexImm _ => true
  | _ => false

/-- Specification-side predicate (following the claim's words): a sum of
products — composed only of Add, Sub and Mul over Access nodes and
immediates, with no Add or Sub occurring beneath a Mul. -/
def sumOfProducts : IndexExpr → Bool
  | .add a b => sumOfProducts a && sumOfProducts b
  | .sub a b => sumOfProducts a && sumOfProducts b
  | e => productOfAtoms e

/-- The top-level node is an Add or a Sub. -/
def isAddOrSub : IndexExpr → Bool
  | .add _ _ => true
  | .sub _ _ => true
  | _ => false

/-- The set of index variables occurring in any Access anywhere in the
expression (proof-side helper relating the two variable collectors). -/
def accessVarsFS : IndexExpr → Finset IndexVar
  | .undef => ∅
  | .access _ vars => vars.toFinset
  | .neg a => accessVarsFS a
  | .sqrt a => accessVarsFS a
  | .add a b => accessVarsFS a ∪ accessVarsFS b
  | .sub a b => accessVarsFS a ∪ accessVarsFS b
  | .mul a b => accessVarsFS a ∪ accessVarsFS b
  | .div a b => accessVarsFS a ∪ accessVarsFS b
  | .reduction op _ a => accessVarsFS op ∪ accessVarsFS a
  | .intImm _ => ∅
  | .uintImm _ => ∅
  | .floatImm _ => ∅
  | .complexImm _ => ∅

/-- The expression contains no Reduction node. -/
def noReduction : IndexExpr → Bool
  | .undef => true
  | .access _ _ => true
  | .neg a => noReduction a
  | .sqrt a => noReduction a
  | .add a b => noReduction a && noReduction b
  | .sub a b => noReduction a && noReduction b
  | .mul a b => noReduction a && noReduction b
  | .div a b => noReduction a && noReduction b
  | .reduction _ _ _ => false
  | .intImm _ => true
  | .uintImm _ => true
  | .floatImm _ => true
  | .complexImm _ => true

/-- Specification-side predicate for C7: every index variable occurring
in an Access and not contained in `free` is bound by at least one
enclosing Reduction on the path from the root (`bound` collects the
variables of the Reductions already passed). -/
def boundOK (free bound : List IndexVar) : IndexExpr → Bool
  | .undef => true
  | .access _ vars => vars.all (fun v => decide (v ∈ free ∨ v ∈ bound))
  | .neg a => boundOK free bound a
  | .sqrt a => boundOK free bound a
  | .add a b => boundOK free bound a && boundOK free bound b
  | .sub a b => boundOK free bound a && boundOK free bound b
  | .mul a b => boundOK free bound a && boundOK free bound b
  | .div a b => boundOK free bound a && boundOK free bound b
  | .reduction op v a => boundOK free (v :: bound) op && boundOK free (v :: bound) a
  | .intImm _ => true
  | .uintImm _ => true
  | .floatImm _ => true
  | .complexImm _ => true

/-- Expression trees with an allocation identity on every node, for the
Simplify rewriter: the C++ rewriter's reuse checks (`a == op->a`) compare
IntrusivePtr addresses, and `zeroed : set<Access>` is likewise ordered by
address.  Two nodes are the same C++ object exactly when their labelled
trees are equal, assuming each allocation carries a distinct id.  `undef`
is the null handle and carries no id. -/
inductive LExpr where
  | undef : LExpr
  | access (id : Nat) (tensorVar : TensorVarId) (indexVars : List IndexVar) : LExpr
  | neg (id : Nat) (a : LExpr) : LExpr
  | sqrt (id : Nat) (a : LExpr) : LExpr
  | add (id : Nat) (a b : LExpr) : LExpr
  | sub (id : Nat) (a b : LExpr) : LExpr
  | mul (id : Nat) (a b : LExpr) : LExpr
  | div (id : Nat) (a b : LExpr) : LExpr
  | reduction (id : Nat) (op : LExpr) (var : IndexVar) (a : LExpr) : LExpr
  | intImm (id : Nat) (val : Int) : LExpr
  | uintImm (id : Nat) (val : Nat) : LExpr
  | floatImm (id : Nat) (val : Int) : LExpr
  | complexImm (id : Nat) (val : Int × Int) : LExpr
deriving DecidableEq, Repr

/-- The Simplify rewriter of expr.cpp over labelled trees, threading a
fresh-id counter for the nodes the rewriter allocates (`new T(a, b)`).
An Access in `zeroed` becomes undefined; Neg/Sqrt propagate an undefined
child; Add/Sub (visitDisjunctionOp) drop an undefined side and are
undefined only when both sides are; Mul/Div (visitConjunctionOp) are
undefined when either side is; a Reduction follows its body and never
rewrites its operator; immediates are returned unchanged.  Every branch
that the C++ resolves by returning `op` itself returns the original
labelled node and leaves the counter unchanged; every `new` allocates the
counter as the id and bumps it. -/
def simplify (zeroed : List LExpr) : Nat → LExpr → LExpr × Nat
  | n, .undef => (.undef, n)
  | n, .access i t vs =>
      if .access i t vs ∈ zeroed then (.undef, n) else (.access i t vs, n)
  | n, .neg i a =>
      let r := simplify zeroed n a
      if r.1 = .undef then (.undef, r.2)
      else if r.1 = a then (.neg i a, r.2)
      else (.neg r.2 r.1, r.2 + 1)
  | n, .sqrt i a =>
      let r := simplify zeroed n a
      if r.1 = .undef then (.undef, r.2)
      else if r.1 = a then (.sqrt i a, r.2)
      else (.sqrt r.2 r.1, r.2 + 1)
  | n, .add i a b =>
      let ra := simplify zeroed n a
      let rb := simplify zeroed ra.2 b
      if ra.1 = .undef ∧ rb.1 = .undef then (.undef, rb.2)
      else if ra.1 = .undef then (rb.1, rb.2)
      else if rb.1 = .undef then (ra.1, rb.2)
      else if ra.1 = a ∧ rb.1 = b then (.add i a b, rb.2)
      else (.add rb.2 ra.1 rb.1, rb.2 + 1)
  | n, .sub i a b =>
      let ra := simplify zeroed n a
      let rb := simplify zeroed ra.2 b
      if ra.1 = .undef ∧ rb.1 = .undef then (.undef, rb.2)
      else if ra.1 = .undef then (rb.1, rb.2)
      else if rb.1 = .undef then (ra.1, rb.2)
      else if ra.1 = a ∧ rb.1 = b then (.sub i a b, rb.2)
      else (.sub rb.2 ra.1 rb.1, rb.2 + 1)
  | n, .mul i a b =>
      let ra := simplify zeroed n a
      let rb := simplify zeroed ra.2 b
      if ra.1 = .undef ∨ rb.1 = .undef then (.undef, rb.2)
      else if ra.1 = a ∧ rb.1 = b then (.mul i a b, rb.2)
      else (.mul rb.2 ra.1 rb.1, rb.2 + 1)
  | n, .div i a b =>
      let ra := simplify zeroed n a
      let rb := simplify zeroed ra.2 b
      if ra.1 = .undef ∨ rb.1 = .undef then (.undef, rb.2)
      else if ra.1 = a ∧ rb.1 = b then (.div i a b, rb.2)
      else (.div rb.2 ra.1 rb.1, rb.2 + 1)
  | n, .reduction i op v a =>
      let r := simplify zeroed n a
      if r.1 = .undef then (.undef, r.2)
      else if r.1 = a then (.reduction i op v a, r.2)
      else (.reduction r.2 op v r.1, r.2 + 1)
  | n, .intImm i v => (.intImm i v, n)
  | n, .uintImm i v => (.uintImm i v, n)
  | n, .floatImm i v => (.floatImm i v, n)
  | n, .complexImm i v => (.complexImm i v, n)

/-- A defined labelled expression in the sense of the spec's invariant 2:
no undefined child inside a defined node.  A Reduction's operator is
exempt: the `sum` builder stores an AddNode with undefined operands
there, and the rewriter never touches it. -/
def wfL : LExpr → Bool
  | .undef => false
  | .access _ _ _ => true
  | .neg _ a => wfL a
  | .sqrt _ a => wfL a
  | .add _ a b => wfL a && wfL b
  | .sub _ a b => wfL a && wfL b
  | .mul _ a b => wfL a && wfL b
  | .div _ a b => wfL a && wfL b
  | .reduction _ _ _ a => wfL a
  | .intImm _ _ => true
  | .uintImm _ _ => true
  | .floatImm _ _ => true
  | .complexImm _ _ => true

/-- The storage-tree levels of tree.cpp. -/
inductive TreeLevel where
  | values : TreeLevel
  | dense (subLevel : TreeLevel) : TreeLevel
  | sparse (subLevel : TreeLevel) : TreeLevel
  | fixed (subLevel : TreeLevel) : TreeLevel
  | replicated (subLevel : TreeLevel) : TreeLevel
deriving DecidableEq, Repr

/-- The format-string loop of TreeLevel::make: one level per character,
left to right, over an accumulated level starting at values(); an
unrecognized character raises a user error (modelled as none). -/
def makeAux : TreeLevel → List Char → Option TreeLevel
  | level, [] => some level
  | level, c :: rest =>
      if c = 'd' then makeAux (.dense level) rest
      else if c = 's' then makeAux (.sparse level) rest
      else if c = 'f' then makeAux (.fixed level) rest
      else if c = 'r' then makeAux (.replicated level) rest
      else none

/-- TreeLevel::make(format) from tree.cpp. -/
def TreeLevel.make (format : List Char) : Option TreeLevel :=
  makeAux .values format

/-- Specification-side step (following the claim's words): the level kind
a recognized character wraps around the accumulated chain. -/
def levelStep (level : TreeLevel) (c : Char) : TreeLevel :=
  if c = 'd' then .dense level
  else if c = 's' then .sparse level
  else if c = 'f' then .fixed level
  else if c = 'r' then .replicated level
  else level

/-- Specification-side chain (following the claim's words): one level per
character over a values level, processed left to right. -/
def chainSpec (format : List Char) : TreeLevel :=
  format.foldl levelStep .values

/-- A format character the tree.cpp switch recognizes. -/
def goodChar (c : Char) : Bool :=
  c = 'd' ∨ c = 's' ∨ c = 'f' ∨ c = 'r'

/-- The user errors of the assignment protocol (taco_uassert sites of
Access::operator=, TensorVar::operator= and TensorVar::setIndexExpression). -/
inductive AssignError where
  | reassign (name : String) : AssignError
  | dimensionMismatch : AssignError
  | missformed : AssignError
  | transposition : AssignError
  | distribution : AssignError
  | scalarAssignToNonScalar : AssignError
deriving DecidableEq, Repr

/-- The assignment-relevant fields of TensorVar::Content (name, order of
the type's shape, free vars, bound expression, accumulate flag; the data
type, format and schedule play no role in the claims under study).  An
undefined indexExpr means no assignment has been recorded. -/
structure TensorVarState where
  name : String
  order : Nat
  freeVars : List IndexVar
  indexExpr : IndexExpr
  accumulate : Bool
deriving DecidableEq, Repr

/-- TensorVar::setIndexExpression(freeVars, indexExpr, accumulate): the
dimensional type-check and the transposition and distribution detectors
live in error_checks.cpp which is not in src; they are taken as
parameters (external collaborators per the spec, section 4.4).  The
well-formedness check is the verify of expr.cpp.  On success the
assignment is recorded on the content block. -/
def setIndexExpression (dimensionsOk transposes distributes : Bool)
    (tv : TensorVarState) (freeVars : List IndexVar) (indexExpr : IndexExpr)
    (accumulate : Bool) : Except AssignError TensorVarState :=
  if !dimensionsOk then .error .dimensionMismatch
  else if !(verify indexExpr freeVars) then .error .missformed
  else if transposes then .error .transposition
  else if distributes then .error .distribution
  else .ok { tv with freeVars := freeVars, indexExpr := indexExpr,
                     accumulate := accumulate }

/-- Access::operator= and Access::operator+= on an access of the tensor
`tv` with index variables `indices`: assert the tensor has no recorded
assignment (otherwise the reassignment user error naming the tensor),
then record the expression.  Modelled from the spec for the forwarding
step: AccessNode::setIndexExpression (expr_nodes.h, not in src) stores
the assignment on the tensor with the access's index variables as the
free variables, which TensorVar::setIndexExpression performs. -/
def accessAssign (dimensionsOk transposes distributes : Bool)
    (tv : TensorVarState) (indices : List IndexVar) (rhs : IndexExpr)
    (accumulate : Bool) : Except AssignError TensorVarState :=
  if tv.indexExpr.isDefined then .error (.reassign tv.name)
  else setIndexExpression dimensionsOk transposes distributes tv indices rhs accumulate

/-- TensorVar::operator=(expr): only an order-zero tensor may be assigned
without index variables on the left-hand side; assert no recorded
assignment (otherwise the reassignment user error naming the tensor),
then record the expression with the current free variables and no
accumulation. -/
def tensorAssignScalar (dimensionsOk transposes distributes : Bool)
    (tv : TensorVarState) (rhs : IndexExpr) : Except AssignError TensorVarState :=
  if tv.order ≠ 0 then .error .scalarAssignToNonScalar
  else if tv.indexExpr.isDefined then .error (.reassign tv.name)
  else setIndexExpression dimensionsOk transposes distributes tv tv.freeVars rhs false

theorem accessLoopEq_refl (l : List IndexVar) : accessLoopEq l l = true := by
  induction l with
  | nil => rfl
  | cons a as ih => simp [accessLoopEq, ih]

theorem equals_refl (e : IndexExpr) : equals e e = true := by
  induction e with
  | undef => rfl
  | access t l => simp [equals, accessLoopEq_refl]
  | neg a ih => simpa [equals] using ih
  | sqrt a ih => simpa [equals] using ih
  | add a b iha ihb => simp [equals, iha, ihb]
  | sub a b iha ihb => simp [equals, iha, ihb]
  | mul a b iha ihb => simp [equals, iha, ihb]
  | div a b iha ihb => simp [equals, iha, ihb]
  | reduction op v a ihop iha => simp [equals, ihop, iha]
  | intImm v => simp [equals]
  | uintImm v => simp [equals]
  | floatImm v => simp [equals]
  | complexImm v => simp [equals]

/-- C1: the Access case of structural equality compares one side's length
with itself, so two accesses of the same tensor with index-variable lists
of different lengths compare equal whenever the shorter list is a prefix
of the longer: `equals(T(v5), T(v5, v6))` evaluates to true, although the
claim requires the two sides' sequences to have the same length (and the
mirrored comparison reads past the end of the shorter vector). -/
theorem equals_access_length_unchecked :
    equals (.access 0 [5]) (.access 0 [5, 6]) = true := by decide


theorem doesEinsumApplyAux_spec (e : IndexExpr) :
    doesEinsumApplyAux true e = productOfAtoms e ∧
    doesEinsumApplyAux false e = sumOfProducts e := by
  induction e with
  | undef => exact ⟨rfl, rfl⟩
  | access t l => exact ⟨rfl, rfl⟩
  | neg a ih => exact ⟨rfl, rfl⟩
  | sqrt a ih => exact ⟨rfl, rfl⟩
  | add a b iha ihb =>
      refine ⟨rfl, ?_⟩
      simp [doesEinsumApplyAux, sumOfProducts, iha.2, ihb.2]
  | sub a b iha ihb =>
      refine ⟨rfl, ?_⟩
      simp [doesEinsumApplyAux, sumOfProducts, iha.2, ihb.2]
  | mul a b iha ihb =>
      constructor
      · simp [doesEinsumApplyAux, productOfAtoms, iha.1, ihb.1]
      · simp [doesEinsumApplyAux, sumOfProducts, productOfAtoms, iha.1, ihb.1]
  | div a b iha ihb => exact ⟨rfl, rfl⟩
  | reduction op v a ihop iha => exact ⟨rfl, rfl⟩
  | intImm v => exact ⟨rfl, rfl⟩
  | uintImm v => exact ⟨rfl, rfl⟩
  | floatImm v => exact ⟨rfl, rfl⟩
  | complexImm v => exact ⟨rfl, rfl⟩

/-- doesEinsumApply agrees with the claim's sum-of-products
characterization of einsum eligibility. -/
theorem doesEinsumApply_eq_sumOfProducts (e : IndexExpr) :
    doesEinsumApply e = sumOfProducts e :=
  (doesEinsumApplyAux_spec e).2

theorem addReductions_ne_undef (free : List IndexVar) (e : IndexExpr)
    (h : e ≠ .undef) : addReductions free e ≠ .undef := by
  unfold addReductions
  generalize (getIndexVars e).reverse = l
  induction l generalizing e with
  | nil => simpa using h
  | cons v l ih =>
      simp only [List.foldl_cons]
      by_cases hv : v ∈ free
      · rw [if_pos hv]
        exact ih e h
      · rw [if_neg hv]
        exact ih (sumNode v e) (by simp [sumNode])

theorem einsumRw_ne_undef (free : List IndexVar) (e : IndexExpr)
    (h : e ≠ .undef) : (einsumRw free e).1 ≠ .undef := by
  cases e <;> simp_all [einsumRw]

/-- C4: einsum(expr, free) returns the undefined IndexExpr exactly when
the expression is not einsum-eligible, einsum eligibility being the
sum-of-products shape: only Add, Sub and Mul over Access nodes and
immediates, with no Add or Sub beneath a Mul; Reduction, Neg, Sqrt and
Div disqualify. -/
theorem einsum_undef_iff_not_sumOfProducts (e : IndexExpr)
    (free : List IndexVar) (h : e ≠ .undef) :
    einsum e free = .undef ↔ sumOfProducts e = false := by
  constructor
  · intro hu
    cases hsp : sumOfProducts e with
    | false => rfl
    | true =>
        exfalso
        unfold einsum at hu
        rw [doesEinsumApply_eq_sumOfProducts, hsp] at hu
        simp only [Bool.true_eq_false, if_false] at hu
        cases hr2 : (einsumRw free e).2 with
        | false =>
            rw [hr2] at hu
            simp only [Bool.false_eq_true, if_false] at hu
            exact addReductions_ne_undef free _ (einsumRw_ne_undef free e h) hu
        | true =>
            rw [hr2] at hu
            simp only [if_true] at hu
            exact einsumRw_ne_undef free e h hu
  · intro hsp
    unfold einsum
    rw [doesEinsumApply_eq_sumOfProducts, hsp]
    simp

/-- Witness for C4 at a concrete input: a Neg node is not an Access,
Add, Sub, Mul or immediate, so it disqualifies and einsum is undefined. -/
theorem einsum_undef_iff_not_sumOfProducts_witness :
    IndexExpr.neg (.access 0 [1]) ≠ .undef ∧
    (einsum (.neg (.access 0 [1])) [1] = .undef ↔
      sumOfProducts (.neg (.access 0 [1])) = false) :=
  ⟨by decide, einsum_undef_iff_not_sumOfProducts _ _ (by decide)⟩

theorem einsumRw_of_productOfAtoms (free : List IndexVar) (e : IndexExpr)
    (h : productOfAtoms e = true) : einsumRw free e = (e, false) := by
  induction e <;> simp_all [productOfAtoms, einsumRw]

theorem foldr_skip_filter (free : List IndexVar) (l : List IndexVar)
    (e : IndexExpr) :
    l.foldr (fun v acc => if v ∈ free then acc else sumNode v acc) e =
      (l.filter (fun v => decide (v ∉ free))).foldr sumNode e := by
  induction l with
  | nil => rfl
  | cons v l ih =>
      by_cases hv : v ∈ free <;> simp [List.filter_cons, hv, ih]

/-- addReductions, rewritten as a right fold over the non-free index
variables in occurrence order: the first-occurring non-free variable
ends up as the outermost reduction. -/
theorem addReductions_eq_foldr (free : List IndexVar) (e : IndexExpr) :
    addReductions free e =
      ((getIndexVars e).filter (fun v => decide (v ∉ free))).foldr sumNode e := by
  unfold addReductions
  rw [List.foldl_reverse]
  exact foldr_skip_filter free (getIndexVars e) e

theorem productOfAtoms_of_not_addsub (e : IndexExpr)
    (h : sumOfProducts e = true) (ht : isAddOrSub e = false) :
    productOfAtoms e = true := by
  cases e <;> simp_all [sumOfProducts, isAddOrSub]

/-- C2 counterexample: for the single-term product
A(v1,v2) * B(v2,v3) with an empty free list, the non-free variables in
occurrence order are v1, v2, v3, and einsum nests the reductions with the
first-occurring variable v1 outermost, not with the last-occurring
variable v3 outermost as the claim states. -/
theorem einsum_reverse_order_counterexample :
    getIndexVars (.mul (.access 0 [1, 2]) (.access 1 [2, 3])) = [1, 2, 3] ∧
    doesEinsumApply (.mul (.access 0 [1, 2]) (.access 1 [2, 3])) = true ∧
    isAddOrSub (.mul (.access 0 [1, 2]) (.access 1 [2, 3])) = false ∧
    einsum (.mul (.access 0 [1, 2]) (.access 1 [2, 3])) [] =
      sumNode 1 (sumNode 2 (sumNode 3
        (.mul (.access 0 [1, 2]) (.access 1 [2, 3])))) ∧
    einsum (.mul (.access 0 [1, 2]) (.access 1 [2, 3])) [] ≠
      sumNode 3 (sumNode 2 (sumNode 1
        (.mul (.access 0 [1, 2]) (.access 1 [2, 3])))) := by
  refine ⟨by decide, by decide, by decide, by decide, by decide⟩

/-- C2 as amended: for an einsum-eligible expression whose top level is a
single product-or-access term (no outer Add or Sub), einsum(expr, free)
wraps each IndexVar occurring in the expression but not in free inside a
Reduction, added from the inside out in reverse of their occurrence
order, yielding sum(v1)(sum(v2)(... expr ...)) where v1, ..., vk is the
occurrence order of the non-free variables — so the first-occurring
variable v1 is the outermost reduction. -/
theorem einsum_single_term (e : IndexExpr) (free : List IndexVar)
    (h : doesEinsumApply e = true) (ht : isAddOrSub e = false) :
    einsum e free =
      ((getIndexVars e).filter (fun v => decide (v ∉ free))).foldr sumNode e := by
  have hsp : sumOfProducts e = true := by
    rw [← doesEinsumApply_eq_sumOfProducts]; exact h
  have hpa : productOfAtoms e = true := productOfAtoms_of_not_addsub e hsp ht
  unfold einsum
  rw [h]
  rw [einsumRw_of_productOfAtoms free e hpa]
  simp [addReductions_eq_foldr]

/-- Witness for the amended C2 at the matmul product with free variables
v1 and v3: the only non-free variable v2 is wrapped in a single sum. -/
theorem einsum_single_term_witness :
    doesEinsumApply (.mul (.access 0 [1, 2]) (.access 1 [2, 3])) = true ∧
    isAddOrSub (.mul (.access 0 [1, 2]) (.access 1 [2, 3])) = false ∧
    einsum (.mul (.access 0 [1, 2]) (.access 1 [2, 3])) [1, 3] =
      ((getIndexVars (.mul (.access 0 [1, 2]) (.access 1 [2, 3]))).filter
        (fun v => decide (v ∉ [1, 3]))).foldr sumNode
        (.mul (.access 0 [1, 2]) (.access 1 [2, 3])) :=
  ⟨by decide, by decide, einsum_single_term _ _ (by decide) (by decide)⟩

/-- C3: at the expression A(v7) + sum(v7)(B(v7)) the walk first inserts
v7 for the left access, then reaches the Reduction and erases v7 from the
accumulated set, so getVarsWithoutReduction returns the empty set even
though v7 is accessed outside any Reduction binding it and the claim
requires v7 to be in the returned set. -/
theorem getVarsWithoutReduction_drops_unreduced_var :
    getVarsWithoutReduction
      (.add (.access 0 [7])
        (.reduction (.add .undef .undef) 7 (.access 1 [7]))) = ∅ := by
  decide

theorem mem_pushUnseen (vars : List IndexVar) (acc : List IndexVar)
    (v : IndexVar) : v ∈ pushUnseen acc vars ↔ v ∈ acc ∨ v ∈ vars := by
  induction vars generalizing acc with
  | nil => simp [pushUnseen]
  | cons w vars ih =>
      have hstep : pushUnseen acc (w :: vars) =
          pushUnseen (if w ∈ acc then acc else acc ++ [w]) vars := rfl
      rw [hstep, ih]
      by_cases hw : w ∈ acc
      · simp only [if_pos hw, List.mem_cons]
        constructor
        · rintro (h1 | h1)
          · exact Or.inl h1
          · exact Or.inr (Or.inr h1)
        · rintro (h1 | h1 | h1)
          · exact Or.inl h1
          · exact Or.inl (h1 ▸ hw)
          · exact Or.inr h1
      · simp only [if_neg hw, List.mem_append, List.mem_singleton, List.mem_cons]
        tauto

theorem mem_givAux (e : IndexExpr) (acc : List IndexVar) (v : IndexVar) :
    v ∈ givAux e acc ↔ v ∈ acc ∨ v ∈ accessVarsFS e := by
  induction e generalizing acc with
  | undef => simp [givAux, accessVarsFS]
  | access t vars => simp [givAux, accessVarsFS, mem_pushUnseen]
  | neg a ih => simp [givAux, accessVarsFS, ih]
  | sqrt a ih => simp [givAux, accessVarsFS, ih]
  | add a b iha ihb => simp [givAux, accessVarsFS, iha, ihb]; tauto
  | sub a b iha ihb => simp [givAux, accessVarsFS, iha, ihb]; tauto
  | mul a b iha ihb => simp [givAux, accessVarsFS, iha, ihb]; tauto
  | div a b iha ihb => simp [givAux, accessVarsFS, iha, ihb]; tauto
  | reduction op w a ihop iha =>
      simp [givAux, accessVarsFS, ihop, iha]; tauto
  | intImm x => simp [givAux, accessVarsFS]
  | uintImm x => simp [givAux, accessVarsFS]
  | floatImm x => simp [givAux, accessVarsFS]
  | complexImm x => simp [givAux, accessVarsFS]

theorem mem_getIndexVars (e : IndexExpr) (v : IndexVar) :
    v ∈ getIndexVars e ↔ v ∈ accessVarsFS e := by
  simpa [getIndexVars] using mem_givAux e [] v

theorem gvwrAux_of_noReduction (e : IndexExpr) (he : noReduction e = true)
    (s : Finset IndexVar) : gvwrAux e s = s ∪ accessVarsFS e := by
  induction e generalizing s with
  | undef => simp [gvwrAux, accessVarsFS]
  | access t vars => simp [gvwrAux, accessVarsFS]
  | neg a ih => simpa [gvwrAux, accessVarsFS] using ih (by simpa [noReduction] using he) s
  | sqrt a ih => simpa [gvwrAux, accessVarsFS] using ih (by simpa [noReduction] using he) s
  | add a b iha ihb =>
      simp only [noReduction, Bool.and_eq_true] at he
      simp [gvwrAux, accessVarsFS, iha he.1, ihb he.2, Finset.union_assoc]
  | sub a b iha ihb =>
      simp only [noReduction, Bool.and_eq_true] at he
      simp [gvwrAux, accessVarsFS, iha he.1, ihb he.2, Finset.union_assoc]
  | mul a b iha ihb =>
      simp only [noReduction, Bool.and_eq_true] at he
      simp [gvwrAux, accessVarsFS, iha he.1, ihb he.2, Finset.union_assoc]
  | div a b iha ihb =>
      simp only [noReduction, Bool.and_eq_true] at he
      simp [gvwrAux, accessVarsFS, iha he.1, ihb he.2, Finset.union_assoc]
  | reduction op w a ihop iha => simp [noReduction] at he
  | intImm x => simp [gvwrAux, accessVarsFS]
  | uintImm x => simp [gvwrAux, accessVarsFS]
  | floatImm x => simp [gvwrAux, accessVarsFS]
  | complexImm x => simp [gvwrAux, accessVarsFS]

theorem noReduction_of_productOfAtoms (e : IndexExpr)
    (h : productOfAtoms e = true) : noReduction e = true := by
  induction e <;> simp_all [productOfAtoms, noReduction]

theorem noReduction_of_sumOfProducts : ∀ e : IndexExpr,
    sumOfProducts e = true → noReduction e = true
  | .add a b, h => by
      simp only [sumOfProducts, Bool.and_eq_true] at h
      simp [noReduction, noReduction_of_sumOfProducts a h.1,
        noReduction_of_sumOfProducts b h.2]
  | .sub a b, h => by
      simp only [sumOfProducts, Bool.and_eq_true] at h
      simp [noReduction, noReduction_of_sumOfProducts a h.1,
        noReduction_of_sumOfProducts b h.2]
  | .undef, h => noReduction_of_productOfAtoms _ h
  | .access t vars, h => noReduction_of_productOfAtoms _ h
  | .neg a, h => noReduction_of_productOfAtoms _ h
  | .sqrt a, h => noReduction_of_productOfAtoms _ h
  | .mul a b, h => noReduction_of_productOfAtoms _ h
  | .div a b, h => noReduction_of_productOfAtoms _ h
  | .reduction op v a, h => noReduction_of_productOfAtoms _ h
  | .intImm x, h => noReduction_of_productOfAtoms _ h
  | .uintImm x, h => noReduction_of_productOfAtoms _ h
  | .floatImm x, h => noReduction_of_productOfAtoms _ h
  | .complexImm x, h => noReduction_of_productOfAtoms _ h

theorem gvwrAux_addReductions_subset (free : List IndexVar) (c : IndexExpr)
    (hc : sumOfProducts c = true) (s : Finset IndexVar) :
    gvwrAux (addReductions free c) s ⊆ s ∪ free.toFinset := by
  rw [addReductions_eq_foldr]
  cases hL : (getIndexVars c).filter (fun v => decide (v ∉ free)) with
  | nil =>
      simp only [List.foldr_nil]
      rw [gvwrAux_of_noReduction c (noReduction_of_sumOfProducts c hc) s]
      apply Finset.union_subset_union_right
      intro v hv
      have hvl : v ∈ getIndexVars c := (mem_getIndexVars c v).2 hv
      have : ¬(decide (v ∉ free) = true) := by
        intro hdec
        have : v ∈ (getIndexVars c).filter (fun v => decide (v ∉ free)) :=
          List.mem_filter.2 ⟨hvl, hdec⟩
        rw [hL] at this
        exact absurd this (List.not_mem_nil v)
      simp only [decide_eq_true_eq] at this
      exact List.mem_toFinset.2 (not_not.1 this)
  | cons w L =>
      simp only [List.foldr_cons]
      have : gvwrAux (sumNode w (L.foldr sumNode c)) s = s.erase w := rfl
      rw [this]
      exact subset_trans (Finset.erase_subset w s) Finset.subset_union_left

theorem boundOK_of_noReduction (free bound : List IndexVar) (c : IndexExpr)
    (hc : noReduction c = true)
    (hv : ∀ v ∈ accessVarsFS c, v ∈ free ∨ v ∈ bound) :
    boundOK free bound c = true := by
  induction c with
  | undef => rfl
  | access t vars =>
      simp only [boundOK, List.all_eq_true, decide_eq_true_eq]
      intro v hvv
      exact hv v (by simpa [accessVarsFS] using hvv)
  | neg a ih =>
      exact ih (by simpa [noReduction] using hc) (by simpa [accessVarsFS] using hv)
  | sqrt a ih =>
      exact ih (by simpa [noReduction] using hc) (by simpa [accessVarsFS] using hv)
  | add a b iha ihb =>
      simp only [noReduction, Bool.and_eq_true] at hc
      simp only [accessVarsFS, Finset.mem_union] at hv
      simp [boundOK, iha hc.1 (fun v h => hv v (Or.inl h)),
        ihb hc.2 (fun v h => hv v (Or.inr h))]
  | sub a b iha ihb =>
      simp only [noReduction, Bool.and_eq_true] at hc
      simp only [accessVarsFS, Finset.mem_union] at hv
      simp [boundOK, iha hc.1 (fun v h => hv v (Or.inl h)),
        ihb hc.2 (fun v h => hv v (Or.inr h))]
  | mul a b iha ihb =>
      simp only [noReduction, Bool.and_eq_true] at hc
      simp only [accessVarsFS, Finset.mem_union] at hv
      simp [boundOK, iha hc.1 (fun v h => hv v (Or.inl h)),
        ihb hc.2 (fun v h => hv v (Or.inr h))]
  | div a b iha ihb =>
      simp only [noReduction, Bool.and_eq_true] at hc
      simp only [accessVarsFS, Finset.mem_union] at hv
      simp [boundOK, iha hc.1 (fun v h => hv v (Or.inl h)),
        ihb hc.2 (fun v h => hv v (Or.inr h))]
  | reduction op w a ihop iha => simp [noReduction] at hc
  | intImm x => rfl
  | uintImm x => rfl
  | floatImm x => rfl
  | complexImm x => rfl

theorem boundOK_foldr_sumNode (free : List IndexVar) (c : IndexExpr)
    (hc : noReduction c = true) :
    ∀ (L bound : List IndexVar),
      (∀ v ∈ accessVarsFS c, v ∈ free ∨ v ∈ bound ∨ v ∈ L) →
      boundOK free bound (L.foldr sumNode c) = true := by
  intro L
  induction L with
  | nil =>
      intro bound hv
      exact boundOK_of_noReduction free bound c hc
        (fun v h => by rcases hv v h with h1 | h1 | h1
                       · exact Or.inl h1
                       · exact Or.inr h1
                       · exact absurd h1 (List.not_mem_nil v))
  | cons w L ih =>
      intro bound hv
      have : boundOK free bound ((w :: L).foldr sumNode c) =
          (boundOK free (w :: bound) (.add .undef .undef) &&
           boundOK free (w :: bound) (L.foldr sumNode c)) := rfl
      rw [this]
      have h1 : boundOK free (w :: bound) (.add .undef .undef) = true := rfl
      have h2 : boundOK free (w :: bound) (L.foldr sumNode c) = true := by
        apply ih
        intro v h
        rcases hv v h with ha | ha | ha
        · exact Or.inl ha
        · exact Or.inr (Or.inl (List.mem_cons_of_mem w ha))
        · rcases List.mem_cons.1 ha with hb | hb
          · exact Or.inr (Or.inl (hb ▸ List.mem_cons_self w bound))
          · exact Or.inr (Or.inr hb)
      simp [h1, h2]

theorem boundOK_addReductions (free bound : List IndexVar) (c : IndexExpr)
    (hc : sumOfProducts c = true) :
    boundOK free bound (addReductions free c) = true := by
  rw [addReductions_eq_foldr]
  apply boundOK_foldr_sumNode free c (noReduction_of_sumOfProducts c hc)
  intro v h
  have hvl : v ∈ getIndexVars c := (mem_getIndexVars c v).2 h
  by_cases hf : v ∈ free
  · exact Or.inl hf
  · exact Or.inr (Or.inr (List.mem_filter.2 ⟨hvl, by simpa using hf⟩))

/-- C7: for an einsum-eligible expression and any free list, the
normalized expression passes the well-formedness check, and every index
variable occurring in an Access of the result that is not free is bound
by at least one enclosing Reduction. -/
theorem einsum_verify_and_bound (e : IndexExpr) (free : List IndexVar)
    (h : doesEinsumApply e = true) :
    verify (einsum e free) free = true ∧
    boundOK free [] (einsum e free) = true := by
  have hsp : sumOfProducts e = true := by
    rw [← doesEinsumApply_eq_sumOfProducts]; exact h
  have hmain : ∀ x : IndexExpr, gvwrAux x ∅ ⊆ free.toFinset →
      verify x free = true := by
    intro x hx
    simp only [verify, decide_eq_true_eq]
    intro v hv
    exact List.mem_toFinset.1 (hx hv)
  cases he : isAddOrSub e with
  | false =>
      have hpa : productOfAtoms e = true := productOfAtoms_of_not_addsub e hsp he
      have heq : einsum e free = addReductions free e := by
        unfold einsum
        rw [h, einsumRw_of_productOfAtoms free e hpa]
        simp
      rw [heq]
      constructor
      · apply hmain
        have := gvwrAux_addReductions_subset free e hsp ∅
        simpa [getVarsWithoutReduction] using this
      · exact boundOK_addReductions free [] e hsp
  | true =>
      cases e with
      | add a b =>
          have hab : sumOfProducts a = true ∧ sumOfProducts b = true := by
            simpa [sumOfProducts] using hsp
          have heq : einsum (.add a b) free =
              .add (addReductions free a) (addReductions free b) := by
            unfold einsum
            rw [h]
            simp [einsumRw]
          rw [heq]
          constructor
          · apply hmain
            show gvwrAux (addReductions free b)
              (gvwrAux (addReductions free a) ∅) ⊆ free.toFinset
            calc gvwrAux (addReductions free b) (gvwrAux (addReductions free a) ∅)
                ⊆ gvwrAux (addReductions free a) ∅ ∪ free.toFinset :=
                  gvwrAux_addReductions_subset free b hab.2 _
              _ ⊆ (∅ ∪ free.toFinset) ∪ free.toFinset :=
                  Finset.union_subset_union_left
                    (gvwrAux_addReductions_subset free a hab.1 ∅)
              _ = free.toFinset := by simp
          · show (boundOK free [] (addReductions free a) &&
              boundOK free [] (addReductions free b)) = true
            simp [boundOK_addReductions free [] a hab.1,
              boundOK_addReductions free [] b hab.2]
      | sub a b =>
          have hab : sumOfProducts a = true ∧ sumOfProducts b = true := by
            simpa [sumOfProducts] using hsp
          have heq : einsum (.sub a b) free =
              .sub (addReductions free a) (addReductions free b) := by
            unfold einsum
            rw [h]
            simp [einsumRw]
          rw [heq]
          constructor
          · apply hmain
            show gvwrAux (addReductions free b)
              (gvwrAux (addReductions free a) ∅) ⊆ free.toFinset
            calc gvwrAux (addReductions free b) (gvwrAux (addReductions free a) ∅)
                ⊆ gvwrAux (addReductions free a) ∅ ∪ free.toFinset :=
                  gvwrAux_addReductions_subset free b hab.2 _
              _ ⊆ (∅ ∪ free.toFinset) ∪ free.toFinset :=
                  Finset.union_subset_union_left
                    (gvwrAux_addReductions_subset free a hab.1 ∅)
              _ = free.toFinset := by simp
          · show (boundOK free [] (addReductions free a) &&
              boundOK free [] (addReductions free b)) = true
            simp [boundOK_addReductions free [] a hab.1,
              boundOK_addReductions free [] b hab.2]
      | undef => simp [isAddOrSub] at he
      | access t vars => simp [isAddOrSub] at he
      | neg a => simp [isAddOrSub] at he
      | sqrt a => simp [isAddOrSub] at he
      | mul a b => simp [isAddOrSub] at he
      | div a b => simp [isAddOrSub] at he
      | reduction op v a => simp [isAddOrSub] at he
      | intImm x => simp [isAddOrSub] at he
      | uintImm x => simp [isAddOrSub] at he
      | floatImm x => simp [isAddOrSub] at he
      | complexImm x => simp [isAddOrSub] at he

/-- Witness for C7 at the matmul sum A(v1,v2)*B(v2,v3) + A(v1,v3) with
free variables v1 and v3. -/
theorem einsum_verify_and_bound_witness :
    doesEinsumApply (.add (.mul (.access 0 [1, 2]) (.access 1 [2, 3]))
      (.access 0 [1, 3])) = true ∧
    (verify (einsum (.add (.mul (.access 0 [1, 2]) (.access 1 [2, 3]))
      (.access 0 [1, 3])) [1, 3]) [1, 3] = true ∧
     boundOK [1, 3] [] (einsum (.add (.mul (.access 0 [1, 2])
      (.access 1 [2, 3])) (.access 0 [1, 3])) [1, 3]) = true) :=
  ⟨by decide, einsum_verify_and_bound _ _ (by decide)⟩

theorem wfL_ne_undef (e : LExpr) (h : wfL e = true) : e ≠ .undef := by
  cases e <;> simp_all [wfL]

/-- C6: with an empty zeroed set the Simplify rewriter takes the
reuse branch at every node, so it returns the identical labelled tree —
the same node identity for every subtree — and allocates nothing (the
fresh-id counter is unchanged). -/
theorem simplify_empty_zeroed_identity (e : LExpr) (h : wfL e = true) :
    ∀ n : Nat, simplify [] n e = (e, n) := by
  induction e with
  | undef => simp [wfL] at h
  | access i t vs => intro n; simp [simplify]
  | neg i a ih =>
      intro n
      have ha : wfL a = true := by simpa [wfL] using h
      simp [simplify, ih ha n, wfL_ne_undef a ha]
  | sqrt i a ih =>
      intro n
      have ha : wfL a = true := by simpa [wfL] using h
      simp [simplify, ih ha n, wfL_ne_undef a ha]
  | add i a b iha ihb =>
      intro n
      have hab : wfL a = true ∧ wfL b = true := by simpa [wfL] using h
      simp [simplify, iha hab.1 n, ihb hab.2 n, wfL_ne_undef a hab.1,
        wfL_ne_undef b hab.2]
  | sub i a b iha ihb =>
      intro n
      have hab : wfL a = true ∧ wfL b = true := by simpa [wfL] using h
      simp [simplify, iha hab.1 n, ihb hab.2 n, wfL_ne_undef a hab.1,
        wfL_ne_undef b hab.2]
  | mul i a b iha ihb =>
      intro n
      have hab : wfL a = true ∧ wfL b = true := by simpa [wfL] using h
      simp [simplify, iha hab.1 n, ihb hab.2 n, wfL_ne_undef a hab.1,
        wfL_ne_undef b hab.2]
  | div i a b iha ihb =>
      intro n
      have hab : wfL a = true ∧ wfL b = true := by simpa [wfL] using h
      simp [simplify, iha hab.1 n, ihb hab.2 n, wfL_ne_undef a hab.1,
        wfL_ne_undef b hab.2]
  | reduction i op v a ihop iha =>
      intro n
      have ha : wfL a = true := by simpa [wfL] using h
      simp [simplify, iha ha n, wfL_ne_undef a ha]
  | intImm i v => intro n; rfl
  | uintImm i v => intro n; rfl
  | floatImm i v => intro n; rfl
  | complexImm i v => intro n; rfl

/-- Witness for C6 at a concrete two-access sum: the identical labelled
tree comes back and the counter does not move. -/
theorem simplify_empty_zeroed_identity_witness :
    wfL (.add 2 (.access 0 0 [1]) (.access 1 1 [1])) = true ∧
    simplify [] 5 (.add 2 (.access 0 0 [1]) (.access 1 1 [1])) =
      (.add 2 (.access 0 0 [1]) (.access 1 1 [1]), 5) :=
  ⟨by decide, simplify_empty_zeroed_identity _ (by decide) 5⟩

/-- C5: the undefined-propagation policy of the Simplify rewriter on the
four binary arithmetic nodes.  Add and Sub are disjunction-like: both
children undefined gives undefined, exactly one undefined gives the
other child, neither undefined rebuilds only when a child changed
(unchanged children return the original node and allocate nothing;
changed children allocate a fresh node).  Mul and Div are
conjunction-like: either child undefined gives undefined, otherwise the
node is rebuilt only when a child changed. -/
theorem simplify_binary_policy (z : List LExpr) (n i : Nat) (a b : LExpr)
    (a' b' : LExpr) (n1 n2 : Nat)
    (ha : simplify z n a = (a', n1)) (hb : simplify z n1 b = (b', n2)) :
    (a' = .undef ∧ b' = .undef →
      simplify z n (.add i a b) = (.undef, n2) ∧
      simplify z n (.sub i a b) = (.undef, n2)) ∧
    (a' = .undef ∧ b' ≠ .undef →
      simplify z n (.add i a b) = (b', n2) ∧
      simplify z n (.sub i a b) = (b', n2)) ∧
    (a' ≠ .undef ∧ b' = .undef →
      simplify z n (.add i a b) = (a', n2) ∧
      simplify z n (.sub i a b) = (a', n2)) ∧
    (a' ≠ .undef ∧ b' ≠ .undef ∧ a' = a ∧ b' = b →
      simplify z n (.add i a b) = (.add i a b, n2) ∧
      simplify z n (.sub i a b) = (.sub i a b, n2)) ∧
    (a' ≠ .undef ∧ b' ≠ .undef ∧ ¬(a' = a ∧ b' = b) →
      simplify z n (.add i a b) = (.add n2 a' b', n2 + 1) ∧
      simplify z n (.sub i a b) = (.sub n2 a' b', n2 + 1)) ∧
    ((a' = .undef ∨ b' = .undef) →
      simplify z n (.mul i a b) = (.undef, n2) ∧
      simplify z n (.div i a b) = (.undef, n2)) ∧
    (a' ≠ .undef ∧ b' ≠ .undef ∧ a' = a ∧ b' = b →
      simplify z n (.mul i a b) = (.mul i a b, n2) ∧
      simplify z n (.div i a b) = (.div i a b, n2)) ∧
    (a' ≠ .undef ∧ b' ≠ .undef ∧ ¬(a' = a ∧ b' = b) →
      simplify z n (.mul i a b) = (.mul n2 a' b', n2 + 1) ∧
      simplify z n (.div i a b) = (.div n2 a' b', n2 + 1)) := by
  refine ⟨?_, ?_, ?_, ?_, ?_, ?_, ?_, ?_⟩
  · rintro ⟨h1, h2⟩
    subst h1; subst h2
    constructor <;> simp [simplify, ha, hb]
  · rintro ⟨h1, h2⟩
    subst h1
    constructor <;> simp [simplify, ha, hb, h2]
  · rintro ⟨h1, h2⟩
    subst h2
    constructor <;> simp [simplify, ha, hb, h1]
  · rintro ⟨h1, h2, h3, h4⟩
    subst h3; subst h4
    constructor <;> simp [simplify, ha, hb, h1, h2]
  · rintro ⟨h1, h2, h3⟩
    constructor <;> simp [simplify, ha, hb, h1, h2, h3]
  · rintro (h1 | h1)
    · subst h1
      constructor <;> simp [simplify, ha, hb]
    · subst h1
      constructor <;> simp [simplify, ha, hb]
  · rintro ⟨h1, h2, h3, h4⟩
    subst h3; subst h4
    constructor <;> simp [simplify, ha, hb, h1, h2]
  · rintro ⟨h1, h2, h3⟩
    constructor <;> simp [simplify, ha, hb, h1, h2, h3]

/-- Witness for C5 at concrete inputs: a zeroed access on the left of an
Add yields the right child, and on the left of a Mul yields undefined. -/
theorem simplify_binary_policy_witness :
    simplify [LExpr.access 0 0 [1]] 0
      (.add 7 (.access 0 0 [1]) (.intImm 1 5)) = (.intImm 1 5, 0) ∧
    simplify [LExpr.access 0 0 [1]] 0
      (.mul 8 (.access 0 0 [1]) (.intImm 1 5)) = (.undef, 0) :=
  ⟨((simplify_binary_policy [LExpr.access 0 0 [1]] 0 7 (.access 0 0 [1])
      (.intImm 1 5) .undef (.intImm 1 5) 0 0 (by decide) (by decide)).2.1
      ⟨rfl, by decide⟩).1,
   ((simplify_binary_policy [LExpr.access 0 0 [1]] 0 8 (.access 0 0 [1])
      (.intImm 1 5) .undef (.intImm 1 5) 0 0 (by decide) (by decide)).2.2.2.2.2.1
      (Or.inl rfl)).1⟩

theorem makeAux_all_good (f : List Char) :
    ∀ level : TreeLevel, (∀ c ∈ f, goodChar c = true) →
      makeAux level f = some (f.foldl levelStep level) := by
  induction f with
  | nil => intro level h; rfl
  | cons c f ih =>
      intro level h
      have hc := h c (List.mem_cons_self c f)
      have hrest : ∀ x ∈ f, goodChar x = true :=
        fun x hx => h x (List.mem_cons_of_mem c hx)
      simp only [goodChar, decide_eq_true_eq] at hc
      rcases hc with hc | hc | hc | hc <;> subst hc <;>
        simp [makeAux, levelStep, ih _ hrest]

theorem makeAux_none_iff (f : List Char) :
    ∀ level : TreeLevel,
      (makeAux level f = none ↔ ∃ c ∈ f, goodChar c = false) := by
  induction f with
  | nil => intro level; simp [makeAux]
  | cons c f ih =>
      intro level
      cases hc : goodChar c with
      | true =>
          have hc' := hc
          simp only [goodChar, decide_eq_true_eq] at hc'
          rcases hc' with h | h | h | h <;> subst h <;>
            simp [makeAux, ih, hc]
      | false =>
          have hc' := hc
          simp only [goodChar, decide_eq_false_iff_not, not_or] at hc'
          obtain ⟨h1, h2, h3, h4⟩ := hc'
          simp [makeAux, h1, h2, h3, h4]
          exact Or.inl hc

/-- C9: TreeLevel::make(format) raises a user error exactly when the
format string contains a character other than d, s, f or r; on a string
over that alphabet it returns the level chain built over a values level
with one level per character, processed left to right. -/
theorem treeLevel_make_spec (f : List Char) :
    (TreeLevel.make f = none ↔ ∃ c ∈ f, goodChar c = false) ∧
    ((∀ c ∈ f, goodChar c = true) → TreeLevel.make f = some (chainSpec f)) :=
  ⟨makeAux_none_iff f .values, fun h => makeAux_all_good f .values h⟩

/-- Witness for C9 on the format ds and on the bad format dx. -/
theorem treeLevel_make_spec_witness :
    (∀ c ∈ ['d', 's'], goodChar c = true) ∧
    TreeLevel.make ['d', 's'] = some (chainSpec ['d', 's']) ∧
    (TreeLevel.make ['d', 'x'] = none ↔ ∃ c ∈ ['d', 'x'], goodChar c = false) :=
  ⟨by decide, (treeLevel_make_spec ['d', 's']).2 (by decide),
    (treeLevel_make_spec ['d', 'x']).1⟩

theorem setIndexExpression_ne_reassign (dimensionsOk transposes distributes : Bool)
    (tv : TensorVarState) (fv : List IndexVar) (e : IndexExpr) (acc : Bool)
    (nm : String) :
    setIndexExpression dimensionsOk transposes distributes tv fv e acc ≠
      .error (.reassign nm) := by
  unfold setIndexExpression
  split_ifs <;> simp

/-- C8: the assignment protocol rejects re-assignment.  When the tensor
already records an assignment, Access::operator= / operator+= and (on an
order-zero tensor) TensorVar::operator= fail with the reassignment user
error naming the tensor, before any state is written; when no assignment
is recorded, the reassignment error can not occur (any failure is one of
the later checks). -/
theorem assignment_rejects_reassignment
    (dimensionsOk transposes distributes : Bool) (tv : TensorVarState)
    (indices : List IndexVar) (rhs : IndexExpr) (accumulate : Bool) :
    (tv.indexExpr.isDefined = true →
      accessAssign dimensionsOk transposes distributes tv indices rhs accumulate =
        .error (.reassign tv.name) ∧
      (tv.order = 0 →
        tensorAssignScalar dimensionsOk transposes distributes tv rhs =
          .error (.reassign tv.name))) ∧
    (tv.indexExpr.isDefined = false →
      ∀ nm : String,
        accessAssign dimensionsOk transposes distributes tv indices rhs accumulate ≠
          .error (.reassign nm) ∧
        tensorAssignScalar dimensionsOk transposes distributes tv rhs ≠
          .error (.reassign nm)) := by
  constructor
  · intro hd
    constructor
    · simp [accessAssign, hd]
    · intro h0
      simp [tensorAssignScalar, h0, hd]
  · intro hd nm
    constructor
    · simp only [accessAssign, hd, Bool.false_eq_true, if_false]
      exact setIndexExpression_ne_reassign _ _ _ _ _ _ _ _
    · unfold tensorAssignScalar
      split_ifs with h1 h2
      · simp
      · rw [hd] at h2; exact absurd h2 (by simp)
      · exact setIndexExpression_ne_reassign _ _ _ _ _ _ _ _

/-- Witness for C8: a bound order-2 tensor C rejects a second assignment
through an access, and an unbound tensor is not rejected by the
reassignment check. -/
theorem assignment_rejects_reassignment_witness :
    (TensorVarState.indexExpr
      ⟨"C", 2, [1, 3], .mul (.access 0 [1, 2]) (.access 1 [2, 3]), false⟩).isDefined
      = true ∧
    accessAssign true false false
      ⟨"C", 2, [1, 3], .mul (.access 0 [1, 2]) (.access 1 [2, 3]), false⟩
      [1, 3] (.add (.access 0 [1, 2]) (.access 1 [2, 3])) false =
      .error (.reassign "C") :=
  ⟨by decide,
    ((assignment_rejects_reassignment true false false
      ⟨"C", 2, [1, 3], .mul (.access 0 [1, 2]) (.access 1 [2, 3]), false⟩
      [1, 3] (.add (.access 0 [1, 2]) (.access 1 [2, 3])) false).1
      (by decide)).1⟩

/-- C10: structural equality of two Reduction nodes compares the reduction
operator and the body but never the bound variable, so reductions over
distinct variables with identical operator and body are structurally
equal. -/
theorem equals_reduction_ignores_var (op a : IndexExpr) (v w : IndexVar) :
    equals (.reduction op v a) (.reduction op w a) = true := by
  simp [equals, equals_refl]

end Taco
